import Mathlib

/-!
Verification of the `iotdemo` event-sink core: a shallow embedding of the
segmented write-ahead journal (`pkg/journal/journal.go`), the AES-GCM
decrypt front guard (`pkg/journal/encrypt.go`), the ring buffer
(`pkg/rb/rb.go`), the sink orchestrator (`internal/sink/sink.go`), the
deduplication middleware and the segment-name formatter, together with
theorems settling the specification claims about them.

Bytes are modelled as natural numbers (`List Nat` for byte slices);
machine-integer truncation (`uint32(...)`, `uint64` wrap-around) is made
explicit with `% 2^32` / `% 2^64` exactly where the Go code converts.
-/

set_option maxRecDepth 8000

namespace Iotdemo

/-- Big-endian bytes of a 32-bit value, as written by
`binary.BigEndian.PutUint32` (each byte is `byte(v >> k)`, i.e. truncated
mod 256). -/
def be32 (n : Nat) : List Nat :=
  [n / 2 ^ 24 % 256, n / 2 ^ 16 % 256, n / 2 ^ 8 % 256, n % 256]

/-- Big-endian bytes of a 64-bit value (`binary.BigEndian.PutUint64`). -/
def be64 (n : Nat) : List Nat :=
  [n / 2 ^ 56 % 256, n / 2 ^ 48 % 256, n / 2 ^ 40 % 256, n / 2 ^ 32 % 256,
   n / 2 ^ 24 % 256, n / 2 ^ 16 % 256, n / 2 ^ 8 % 256, n % 256]

/-- Value read by `binary.BigEndian.Uint32` from the first four bytes of a
list.  The Go function panics when fewer than four bytes are available; all
call sites below guard the length explicitly, so out-of-range defaults are
never observable. -/
def beU32 (l : List Nat) : Nat :=
  l.getD 0 0 * 2 ^ 24 + l.getD 1 0 * 2 ^ 16 + l.getD 2 0 * 2 ^ 8 + l.getD 3 0

/-- Value read by `binary.BigEndian.Uint64` from the first eight bytes. -/
def beU64 (l : List Nat) : Nat :=
  l.getD 0 0 * 2 ^ 56 + l.getD 1 0 * 2 ^ 48 + l.getD 2 0 * 2 ^ 40 +
  l.getD 3 0 * 2 ^ 32 + l.getD 4 0 * 2 ^ 24 + l.getD 5 0 * 2 ^ 16 +
  l.getD 6 0 * 2 ^ 8 + l.getD 7 0

/-- One byte of the IEEE CRC-32 update: eight shift/xor rounds with the
reflected polynomial `0xEDB88320`, as in `hash/crc32` (the table used by
`crc32.ChecksumIEEE` is built from exactly these rounds). -/
def crc32Round : Nat → Nat → Nat
  | c, 0 => c
  | c, k + 1 =>
    crc32Round (if c % 2 = 1 then (c / 2) ^^^ 0xEDB88320 else c / 2) k

/-- IEEE CRC-32 of a byte list (`crc32.ChecksumIEEE`): initial value
`0xFFFFFFFF`, per-byte xor plus eight polynomial rounds, final inversion. -/
def crc32 (data : List Nat) : Nat :=
  (data.foldl (fun c b => crc32Round (c ^^^ b) 8) 0xFFFFFFFF) ^^^ 0xFFFFFFFF

/-- A journal entry (`journal.Entry`): key bytes, value bytes, sequence. -/
structure Entry where
  key : List Nat
  value : List Nat
  seq : Nat
  deriving DecidableEq, Repr

/-- Canonical entry body built by `Journal.write` before checksumming:
`seq (8B BE) | keyLen (4B BE) | key | valLen (4B BE) | value`.  The length
headers are the Go conversions `uint32(len(...))`, hence the `% 2^32`. -/
def encodeBody (e : Entry) : List Nat :=
  be64 (e.seq % 2 ^ 64) ++ be32 (e.key.length % 2 ^ 32) ++ e.key ++
    be32 (e.value.length % 2 ^ 32) ++ e.value

/-- Full on-disk record framing produced by `Journal.write` with no
encryptor configured: `len (4B) | crc (4B) | payload`, with
`len = uint32(len(payload))` and `crc = crc32(payload)`. -/
def encodeRecord (e : Entry) : List Nat :=
  be32 ((encodeBody e).length % 2 ^ 32) ++ be32 (crc32 (encodeBody e)) ++
    encodeBody e

/-- Decoding of the canonical body, the tail of `Journal.read` after the
checksum test.  `none` models a Go panic (out-of-bounds slice access):
`binary.BigEndian.Uint64/Uint32` panic when fewer than 8/4 bytes remain,
and the slice expression `data[pos:pos+int(keyLen)]` panics when it
over-runs the slice.  The value copy `copy(val, data[pos:])` does not
panic; it zero-pads when fewer than `valLen` bytes remain. -/
def parseBody (data : List Nat) : Option Entry :=
  if data.length < 8 then none
  else
    let seq := beU64 (data.take 8)
    if data.length < 12 then none
    else
      let keyLen := beU32 ((data.drop 8).take 4)
      if data.length < 12 + keyLen then none
      else
        let key := (data.drop 12).take keyLen
        if data.length < 16 + keyLen then none
        else
          let valLen := beU32 ((data.drop (12 + keyLen)).take 4)
          let rest := data.drop (16 + keyLen)
          let val := rest.take valLen ++ List.replicate (valLen - rest.length) 0
          some ⟨key, val, seq⟩

/-- Outcome of one `Journal.read` call on the remaining segment bytes. -/
inductive ReadResult where
  /-- A record was decoded; carries the entry and the remaining bytes. -/
  | ok (e : Entry) (rest : List Nat)
  /-- `io.EOF`: a read that obtained zero bytes (clean end of segment). -/
  | eof
  /-- `io.ErrUnexpectedEOF` from `io.ReadFull`: a read that obtained some
  but not all requested bytes. -/
  | unexpectedEof
  /-- `ErrBadChecksum`. -/
  | badChecksum
  /-- A Go panic inside body decoding (out-of-bounds access). -/
  | panicked
  deriving DecidableEq, Repr

/-- `Journal.read` with no encryptor configured, on a byte stream.
Each `io.ReadFull` returns `io.EOF` when zero bytes are available (and the
request is non-empty), `io.ErrUnexpectedEOF` when only some are, and
succeeds otherwise; a zero-length request always succeeds. -/
def readRec (s : List Nat) : ReadResult :=
  if s.length = 0 then .eof
  else if s.length < 4 then .unexpectedEof
  else
    let length := beU32 (s.take 4)
    let r1 := s.drop 4
    if r1.length = 0 then .eof
    else if r1.length < 4 then .unexpectedEof
    else
      let expectedCRC := beU32 (r1.take 4)
      let r2 := r1.drop 4
      if 0 < length ∧ r2.length = 0 then .eof
      else if r2.length < length then .unexpectedEof
      else
        let data := r2.take length
        if crc32 data ≠ expectedCRC then .badChecksum
        else
          match parseBody data with
          | none => .panicked
          | some e => .ok e (r2.drop length)

theorem readRec_ok_length {s : List Nat} {e : Entry} {rest : List Nat}
    (h : readRec s = .ok e rest) : rest.length < s.length := by
  simp only [readRec] at h
  repeat' split at h
  all_goals simp at h
  obtain ⟨-, hrest⟩ := h
  subst hrest
  simp only [List.length_drop, List.length_take] at *
  omega

/-- Entries representable by the Go types and the frame format: key and
value are byte slices (elements below 256), the canonical body length fits
the 4-byte length header, and the sequence fits `uint64`. -/
def wfEntry (e : Entry) : Prop :=
  16 + e.key.length + e.value.length < 2 ^ 32 ∧ e.seq < 2 ^ 64 ∧
  (∀ b ∈ e.key, b < 256) ∧ (∀ b ∈ e.value, b < 256)

instance : DecidablePred wfEntry := fun e => by unfold wfEntry; infer_instance

theorem crc32Round_lt {c : Nat} (k : Nat) (hc : c < 2 ^ 32) :
    crc32Round c k < 2 ^ 32 := by
  induction k generalizing c with
  | zero => simpa [crc32Round] using hc
  | succ k ih =>
    rw [crc32Round]
    apply ih
    split
    · exact Nat.xor_lt_two_pow (by omega) (by norm_num)
    · omega

theorem crc32_lt (data : List Nat) (hd : ∀ b ∈ data, b < 256) :
    crc32 data < 2 ^ 32 := by
  unfold crc32
  have : ∀ (l : List Nat) (c : Nat), c < 2 ^ 32 → (∀ b ∈ l, b < 256) →
      l.foldl (fun c b => crc32Round (c ^^^ b) 8) c < 2 ^ 32 := by
    intro l
    induction l with
    | nil => intro c hc _; simpa using hc
    | cons b l ih =>
      intro c hc hl
      simp only [List.foldl_cons]
      exact ih _ (crc32Round_lt 8 (Nat.xor_lt_two_pow hc
        (lt_of_lt_of_le (hl b (by simp)) (by norm_num)))) fun x hx =>
        hl x (by simp [hx])
  exact Nat.xor_lt_two_pow (this data 0xFFFFFFFF (by norm_num) hd)
    (by norm_num)

theorem mem_be32_lt {b n : Nat} (h : b ∈ be32 n) : b < 256 := by
  simp only [be32, List.mem_cons, List.not_mem_nil, or_false] at h
  rcases h with h | h | h | h <;> subst h <;> exact Nat.mod_lt _ (by norm_num)

theorem mem_be64_lt {b n : Nat} (h : b ∈ be64 n) : b < 256 := by
  simp only [be64, List.mem_cons, List.not_mem_nil, or_false] at h
  rcases h with h | h | h | h | h | h | h | h <;> subst h <;>
    exact Nat.mod_lt _ (by norm_num)

theorem encodeBody_bytes_lt (e : Entry) (he : wfEntry e) :
    ∀ b ∈ encodeBody e, b < 256 := by
  obtain ⟨-, -, hkb, hvb⟩ := he
  intro b hb
  simp only [encodeBody, List.mem_append] at hb
  rcases hb with ((((h | h) | h) | h) | h)
  · exact mem_be64_lt h
  · exact mem_be32_lt h
  · exact hkb b h
  · exact mem_be32_lt h
  · exact hvb b h

theorem beU32_be32 (n : Nat) : beU32 (be32 n) = n % 2 ^ 32 := by
  simp only [be32, beU32, List.getD_cons_zero, List.getD_cons_succ]
  omega

theorem beU64_be64 (n : Nat) : beU64 (be64 n) = n % 2 ^ 64 := by
  simp only [be64, beU64, List.getD_cons_zero, List.getD_cons_succ]
  omega

theorem be32_length (n : Nat) : (be32 n).length = 4 := rfl

theorem be64_length (n : Nat) : (be64 n).length = 8 := rfl

theorem take_app_len {α : Type} {l₁ l₂ : List α} {n : Nat}
    (h : l₁.length = n) : (l₁ ++ l₂).take n = l₁ := by
  subst h; exact List.take_left l₁ l₂

theorem drop_app_len {α : Type} {l₁ l₂ : List α} {n : Nat}
    (h : l₁.length = n) : (l₁ ++ l₂).drop n = l₂ := by
  subst h; exact List.drop_left l₁ l₂

theorem encodeBody_length (e : Entry) :
    (encodeBody e).length = 16 + e.key.length + e.value.length := by
  simp [encodeBody, be32, be64]; omega

/-- Body round-trip: decoding the canonical body of a representable entry
recovers the entry exactly (no panic). -/
theorem parseBody_encodeBody (e : Entry) (he : wfEntry e) :
    parseBody (encodeBody e) = some e := by
  obtain ⟨hlen, hseq, -, -⟩ := he
  have hk : e.key.length % 2 ^ 32 = e.key.length := Nat.mod_eq_of_lt (by omega)
  have hv : e.value.length % 2 ^ 32 = e.value.length :=
    Nat.mod_eq_of_lt (by omega)
  have hs : e.seq % 2 ^ 64 = e.seq := Nat.mod_eq_of_lt hseq
  have hD : encodeBody e =
      be64 e.seq ++ (be32 e.key.length ++ (e.key ++
        (be32 e.value.length ++ e.value))) := by
    unfold encodeBody
    rw [hk, hv, hs]
    simp only [List.append_assoc]
  have hDlen : (encodeBody e).length = 16 + e.key.length + e.value.length :=
    encodeBody_length e
  have h8 : (encodeBody e).drop 8 =
      be32 e.key.length ++ (e.key ++ (be32 e.value.length ++ e.value)) := by
    rw [hD]; exact drop_app_len (be64_length _)
  have htake8 : (encodeBody e).take 8 = be64 e.seq := by
    rw [hD]; exact take_app_len (be64_length _)
  have h12 : (encodeBody e).drop 12 =
      e.key ++ (be32 e.value.length ++ e.value) := by
    have : (encodeBody e).drop 12 = ((encodeBody e).drop 8).drop 4 := by
      rw [List.drop_drop]
    rw [this, h8]; exact drop_app_len (be32_length _)
  have h12K : (encodeBody e).drop (12 + e.key.length) =
      be32 e.value.length ++ e.value := by
    have : (encodeBody e).drop (12 + e.key.length) =
        ((encodeBody e).drop 12).drop e.key.length := by
      rw [List.drop_drop, Nat.add_comm]
    rw [this, h12]; exact drop_app_len rfl
  have h16K : (encodeBody e).drop (16 + e.key.length) =
      e.value := by
    have : (encodeBody e).drop (16 + e.key.length) =
        ((encodeBody e).drop (12 + e.key.length)).drop 4 := by
      rw [List.drop_drop]; ring_nf
    rw [this, h12K]; exact drop_app_len (be32_length _)
  unfold parseBody
  rw [if_neg (by omega), if_neg (by omega)]
  rw [h8, take_app_len (be32_length _), beU32_be32, hk]
  rw [if_neg (by omega), if_neg (by omega)]
  rw [h12, take_app_len rfl]
  rw [h12K, take_app_len (be32_length _), beU32_be32, hv, h16K]
  rw [htake8, beU64_be64, hs]
  simp

/-- Record round-trip (`write` then `read`, no encryptor): reading a stream
that starts with the encoding of a representable entry yields exactly that
entry and leaves exactly the trailing bytes. -/
theorem readRec_encodeRecord (e : Entry) (he : wfEntry e) (rest : List Nat) :
    readRec (encodeRecord e ++ rest) = .ok e rest := by
  have hDlen : (encodeBody e).length = 16 + e.key.length + e.value.length :=
    encodeBody_length e
  have hmod : (encodeBody e).length % 2 ^ 32 = (encodeBody e).length :=
    Nat.mod_eq_of_lt (by have := he.1; omega)
  have hS : encodeRecord e ++ rest =
      be32 (encodeBody e).length ++ (be32 (crc32 (encodeBody e)) ++
        (encodeBody e ++ rest)) := by
    unfold encodeRecord
    rw [hmod]
    simp only [List.append_assoc]
  rw [hS]
  have hSlen : (be32 (encodeBody e).length ++ (be32 (crc32 (encodeBody e)) ++
      (encodeBody e ++ rest))).length =
      8 + (encodeBody e).length + rest.length := by
    simp only [List.length_append, be32_length]
    omega
  have hr1len : (be32 (crc32 (encodeBody e)) ++
      (encodeBody e ++ rest)).length =
      4 + (encodeBody e).length + rest.length := by
    simp only [List.length_append, be32_length]
    omega
  have hr2len : (encodeBody e ++ rest).length =
      (encodeBody e).length + rest.length := List.length_append _ _
  unfold readRec
  rw [if_neg (by omega), if_neg (by omega)]
  rw [take_app_len (be32_length _), beU32_be32, hmod,
    drop_app_len (be32_length _)]
  rw [if_neg (by omega), if_neg (by omega)]
  rw [take_app_len (be32_length _), beU32_be32,
    Nat.mod_eq_of_lt (crc32_lt (encodeBody e) (encodeBody_bytes_lt e he)),
    drop_app_len (be32_length _)]
  rw [if_neg (by rintro ⟨-, h2⟩; omega), if_neg (by omega)]
  rw [take_app_len rfl, drop_app_len rfl]
  rw [if_neg (by simp), parseBody_encodeBody e he]

/-- The 32-bit length declared in a record's 4-byte header. -/
def declaredLen (s : List Nat) : Nat := beU32 (s.take 4)

/-- The payload bytes `read` hands to the checksum test: the declared
number of bytes following the 8-byte header. -/
def framePayload (s : List Nat) : List Nat :=
  (s.drop 8).take (declaredLen s)

/-- Body decoding panics exactly when the payload is shorter than the
16-byte fixed fields plus the declared key length. -/
theorem parseBody_none_iff (d : List Nat) :
    parseBody d = none ↔ d.length < 16 + beU32 ((d.drop 8).take 4) := by
  simp only [parseBody]
  repeat' split
  all_goals simp
  all_goals omega

/-- Scanning one segment as `Journal.scan` and `Journal.Replay` do: decode
records until the reader stops.  `clean` is the `io.EOF` break; `failed`
carries the entries delivered before an error surfaced to the caller. -/
inductive SegScan where
  | clean (es : List Entry)
  | failed (es : List Entry) (r : ReadResult)
  deriving DecidableEq, Repr

/-- The per-segment decode loop shared by `Journal.scan` and
`Journal.Replay` (with `fn` collecting entries and never failing). -/
def replaySeg (s : List Nat) : SegScan :=
  match h : readRec s with
  | .ok e rest =>
    match replaySeg rest with
    | .clean es => .clean (e :: es)
    | .failed es r => .failed (e :: es) r
  | .eof => .clean []
  | .unexpectedEof => .failed [] .unexpectedEof
  | .badChecksum => .failed [] .badChecksum
  | .panicked => .failed [] .panicked
termination_by s.length
decreasing_by exact readRec_ok_length h

/-- Outcome of `AESGCMEncryptor.Decrypt`: either the `ErrCiphertextShort`
guard fired, or the call reached `aead.Open` with the split nonce and
ciphertext.  `Open` is kept abstract: it either authenticates or fails
with its own error, and in no case returns `ErrCiphertextShort`. -/
inductive GCMDecryptResult where
  | cipherTooShort
  | openCall (nonce ct : List Nat)
  deriving DecidableEq, Repr

/-- `AESGCMEncryptor.Decrypt` (`encrypt.go`): the only length guard is
`len(ciphertext) < nonceSize`, with the AES-GCM nonce size of 12 bytes;
otherwise the nonce is split off and `aead.Open` is called on the rest. -/
def aesgcmDecrypt (ciphertext : List Nat) : GCMDecryptResult :=
  if ciphertext.length < 12 then .cipherTooShort
  else .openCall (ciphertext.take 12) (ciphertext.drop 12)

theorem replaySeg_of_ok {s : List Nat} {e : Entry} {rest : List Nat}
    (h : readRec s = .ok e rest) :
    replaySeg s =
      match replaySeg rest with
      | .clean es => .clean (e :: es)
      | .failed es r => .failed (e :: es) r := by
  rw [replaySeg]
  split
  all_goals rename_i heq
  all_goals rw [h] at heq
  · cases heq
    rfl
  all_goals cases heq

theorem replaySeg_of_eof {s : List Nat} (h : readRec s = .eof) :
    replaySeg s = .clean [] := by
  rw [replaySeg]
  split
  all_goals rename_i heq
  all_goals rw [h] at heq
  all_goals cases heq

theorem replaySeg_of_unexpectedEof {s : List Nat}
    (h : readRec s = .unexpectedEof) :
    replaySeg s = .failed [] .unexpectedEof := by
  rw [replaySeg]
  split
  all_goals rename_i heq
  all_goals rw [h] at heq
  all_goals cases heq

/-- C2: encoding an entry with no encryptor configured and decoding the
produced bytes returns an entry with identical key bytes, identical value
bytes and the same sequence number — for every representable entry: key
and value are byte slices whose joint length fits the 4-byte length header
(covers empty key, empty value, and values of 50 KB and far beyond) and
whose sequence fits `uint64`. -/
theorem c2_framing_roundtrip (e : Entry) (he : wfEntry e) :
    readRec (encodeRecord e) = .ok e [] := by
  have h := readRec_encodeRecord e he []
  rwa [List.append_nil] at h

/-- Witness for C2 at a concrete input (empty key, three value bytes). -/
theorem c2_framing_roundtrip_witness :
    wfEntry ⟨[], [104, 105, 33], 7⟩ ∧
    readRec (encodeRecord ⟨[], [104, 105, 33], 7⟩) =
      .ok ⟨[], [104, 105, 33], 7⟩ [] :=
  ⟨by decide, c2_framing_roundtrip ⟨[], [104, 105, 33], 7⟩ (by decide)⟩

/-- C3: evaluation of the decode loop at a failing input.  The segment
holds one complete record followed by a trailing partial record (the full
8-byte header declaring a 2-byte payload, but only one payload byte before
end-of-file).  `io.ReadFull` reports `io.ErrUnexpectedEOF` there, which is
not `io.EOF`, so the loop of `Journal.Replay` (and `Journal.scan`) returns
the error to the caller instead of treating the tail as end-of-segment as
the specification states. -/
theorem c3_torn_tail_is_error :
    replaySeg (encodeRecord ⟨[1], [2], 1⟩ ++ [0, 0, 0, 2, 0, 0, 0, 0, 7]) =
      .failed [⟨[1], [2], 1⟩] .unexpectedEof := by
  rw [replaySeg_of_ok (readRec_encodeRecord ⟨[1], [2], 1⟩ (by decide) _),
    replaySeg_of_unexpectedEof (s := [0, 0, 0, 2, 0, 0, 0, 0, 7]) (by decide)]

/-- C4 counterexample: a 20-byte input is shorter than nonce-size plus
tag-size (28) yet `Decrypt` does not fail with `CiphertextTooShort` — it
passes the 12-byte nonce guard and reaches `aead.Open`. -/
theorem c4_counterexample :
    (List.replicate 20 0).length < 28 ∧
    aesgcmDecrypt (List.replicate 20 0) ≠ .cipherTooShort := by decide

/-- C4 (amended): `AESGCMEncryptor.Decrypt` fails with `CiphertextTooShort`
exactly when the input is shorter than the 12-byte nonce; longer inputs
(including those between 12 and 27 bytes) are handed to `aead.Open`. -/
theorem c4_decrypt_tooShort_iff (c : List Nat) :
    aesgcmDecrypt c = .cipherTooShort ↔ c.length < 12 := by
  unfold aesgcmDecrypt
  split <;> simp_all

/-- C9 counterexample: the 8-byte stream declaring a zero-length record
with the matching CRC of the empty payload (`crc32([]) = 0`) makes `read`
perform an out-of-bounds access — `binary.BigEndian.Uint64(data[0:])`
panics on the empty verified payload — refuting totality of decoding. -/
theorem c9_counterexample :
    readRec [0, 0, 0, 0, 0, 0, 0, 0] = .panicked ∧
    ¬ ∀ s : List Nat, readRec s ≠ ReadResult.panicked :=
  ⟨by decide, fun h => h [0, 0, 0, 0, 0, 0, 0, 0] (by decide)⟩

/-- C9 (amended): `read` is total except in one precisely delimited case —
it panics if and only if the declared record frame is complete, its CRC
verifies, and the verified payload is too short for the canonical body;
and body decoding fails in exactly that way when the payload length is
below 16 bytes plus the declared key length. -/
theorem c9_read_panic_characterization (s : List Nat) :
    (readRec s = .panicked ↔
      8 + declaredLen s ≤ s.length ∧
      crc32 (framePayload s) = beU32 ((s.drop 4).take 4) ∧
      parseBody (framePayload s) = none) ∧
    ∀ d : List Nat,
      (parseBody d = none ↔ d.length < 16 + beU32 ((d.drop 8).take 4)) := by
  refine ⟨?_, parseBody_none_iff⟩
  simp only [readRec, declaredLen, framePayload, List.drop_drop]
  repeat' split
  all_goals simp_all
  all_goals omega

/-- The generic ring buffer of `pkg/rb/rb.go`.  The backing slice
`make([]T, max(capacity, 1))` is modelled as a function from slot index to
value (Go zero values become `default`); `size` is `len(rb.buf)`, `pos` the
write index and `len` the used-slot count. -/
structure RingBuffer (α : Type) where
  size : Nat
  buf : Nat → α
  pos : Nat
  len : Nat

/-- `rb.New`: capacity is promoted to at least 1. -/
def RingBuffer.new (α : Type) [Inhabited α] (capacity : Nat) :
    RingBuffer α :=
  { size := max capacity 1, buf := fun _ => default, pos := 0, len := 0 }

/-- `RingBuffer.Add`: reads the slot at the write index (the value being
overwritten), stores `v` there, advances the write index modulo the size,
and increments `len` unless the buffer was full.  Returns
`(dropped, wasFull, updated buffer)`. -/
def RingBuffer.add {α : Type} (rb : RingBuffer α) (v : α) :
    α × Bool × RingBuffer α :=
  (rb.buf rb.pos, decide (rb.len = rb.size),
   { size := rb.size,
     buf := fun i => if i = rb.pos then v else rb.buf i,
     pos := (rb.pos + 1) % rb.size,
     len := if rb.len = rb.size then rb.len else rb.len + 1 })

/-- `RingBuffer.All`: yields `len` values walking backwards from `pos - 1`.
The Go index `(rb.pos - 1 - i + len(rb.buf)) % len(rb.buf)` is evaluated in
`int` arithmetic on a non-negative operand; for `pos < size` and
`i < len ≤ size` it equals the natural-number expression used here. -/
def RingBuffer.all {α : Type} (rb : RingBuffer α) : List α :=
  (List.range rb.len).map fun i => rb.buf ((rb.pos + rb.size - 1 - i) % rb.size)

/-- Feeding a list of values into a ring buffer one `Add` at a time. -/
def addAll {α : Type} (rb : RingBuffer α) : List α → RingBuffer α
  | [] => rb
  | v :: vs => addAll (rb.add v).2.2 vs

/-- State invariant tying a ring buffer of size `S` to the full history
`vs` of values ever added: the write index and used count are determined
by the history length, and walking backwards from the write index reads
the most recent additions in reverse order. -/
def rbInv {α : Type} [Inhabited α] (S : Nat) (vs : List α)
    (rb : RingBuffer α) : Prop :=
  rb.size = S ∧ rb.pos = vs.length % S ∧ rb.len = min vs.length S ∧
  ∀ i, i < rb.len →
    rb.buf ((rb.pos + S - 1 - i) % S) = vs.reverse.getD i default

theorem rbInv_new (α : Type) [Inhabited α] (C : Nat) :
    rbInv (max C 1) [] (RingBuffer.new α C) := by
  refine ⟨rfl, by simp [RingBuffer.new], by simp [RingBuffer.new], ?_⟩
  intro i hi
  simp [RingBuffer.new] at hi

theorem slot_step_zero {S pos : Nat} (hpos : pos < S) :
    ((pos + 1) % S + S - 1 - 0) % S = pos := by
  rcases Nat.lt_or_ge (pos + 1) S with h | h
  · rw [Nat.mod_eq_of_lt h]
    have harg : pos + 1 + S - 1 - 0 = pos + S := by omega
    rw [harg, Nat.add_mod_right, Nat.mod_eq_of_lt hpos]
  · have hS : pos + 1 = S := by omega
    rw [hS, Nat.mod_self]
    have harg : 0 + S - 1 - 0 = S - 1 := by omega
    rw [harg, Nat.mod_eq_of_lt (by omega)]
    omega

theorem slot_step_succ {S pos i : Nat} (hpos : pos < S) (hi1 : 1 ≤ i)
    (hiS : i < S) :
    ((pos + 1) % S + S - 1 - i) % S = (pos + S - 1 - (i - 1)) % S := by
  rcases Nat.lt_or_ge (pos + 1) S with h | h
  · rw [Nat.mod_eq_of_lt h]
    have harg : pos + 1 + S - 1 - i = pos + S - 1 - (i - 1) := by omega
    rw [harg]
  · have hS : pos + 1 = S := by omega
    rw [hS, Nat.mod_self]
    have harg1 : 0 + S - 1 - i = S - 1 - i := by omega
    have harg2 : pos + S - 1 - (i - 1) = (S - 1 - i) + S := by omega
    rw [harg1, harg2, Nat.add_mod_right]

theorem rbInv_add {α : Type} [Inhabited α] {S : Nat} {vs : List α}
    {rb : RingBuffer α} (hS : 0 < S) (h : rbInv S vs rb) (v : α) :
    rbInv S (vs ++ [v]) (rb.add v).2.2 := by
  obtain ⟨hsize, hpos, hlen, hbuf⟩ := h
  have hposlt : rb.pos < S := by rw [hpos]; exact Nat.mod_lt _ hS
  refine ⟨hsize, ?_, ?_, ?_⟩
  · simp only [RingBuffer.add, hsize, List.length_append, List.length_cons,
      List.length_nil, hpos]
    rw [Nat.mod_add_mod]
  · simp only [RingBuffer.add, hsize, List.length_append, List.length_cons,
      List.length_nil, hlen]
    rcases Nat.lt_or_ge vs.length S with hc | hc
    · rw [if_neg (by omega)]
      omega
    · rw [if_pos (by omega)]
      omega
  · intro i hi
    have hilen : i < if rb.len = rb.size then rb.len else rb.len + 1 := hi
    have hiS : i < S := by
      rcases Nat.lt_or_ge vs.length S with hc | hc <;>
        · split at hilen <;> omega
    simp only [RingBuffer.add] at hilen ⊢
    simp only [hsize]
    rcases Nat.eq_zero_or_pos i with hi0 | hipos
    · subst hi0
      rw [slot_step_zero hposlt, if_pos rfl]
      simp [List.reverse_append]
    · obtain ⟨j, rfl⟩ : ∃ j, i = j + 1 := ⟨i - 1, by omega⟩
      have hstep := slot_step_succ hposlt (by omega) hiS
      rw [Nat.add_sub_cancel] at hstep
      rw [hstep]
      have hne : (rb.pos + S - 1 - j) % S ≠ rb.pos := by
        intro hcontra
        have hjS : j + 2 ≤ S := by
          rcases Nat.lt_or_ge vs.length S with hc | hc <;>
            · split at hilen <;> omega
        rcases Nat.lt_or_ge (rb.pos + S - 1 - j) S with hc | hc
        · rw [Nat.mod_eq_of_lt hc] at hcontra
          omega
        · rw [Nat.mod_eq_sub_mod hc,
            Nat.mod_eq_of_lt (by omega)] at hcontra
          omega
      rw [if_neg hne]
      have hprev : j < rb.len := by
        rcases Nat.lt_or_ge vs.length S with hc | hc <;>
          · split at hilen <;> omega
      rw [hbuf j hprev, List.reverse_append]
      simp [List.getD_cons_succ]

theorem addAll_inv {α : Type} [Inhabited α] {S : Nat} (hS : 0 < S)
    (vs : List α) :
    ∀ (hist : List α) (rb : RingBuffer α), rbInv S hist rb →
      rbInv S (hist ++ vs) (addAll rb vs) := by
  induction vs with
  | nil => intro hist rb h; simpa [addAll] using h
  | cons v vs ih =>
    intro hist rb h
    have h1 := rbInv_add hS h v
    have h2 := ih (hist ++ [v]) _ h1
    simpa [addAll, List.append_assoc] using h2

theorem rbInv_all {α : Type} [Inhabited α] {S : Nat} {vs : List α}
    {rb : RingBuffer α} (h : rbInv S vs rb) :
    rb.all = vs.reverse.take (min vs.length S) := by
  obtain ⟨hsize, hpos, hlen, hbuf⟩ := h
  unfold RingBuffer.all
  have hmin : min vs.length S ≤ vs.length := Nat.min_le_left _ _
  apply List.ext_getElem
  · simp only [List.length_map, List.length_range, List.length_take,
      List.length_reverse, hlen]
    omega
  · intro i h1 h2
    simp only [List.length_map, List.length_range, hlen] at h1
    rw [List.getElem_map, List.getElem_range, List.getElem_take, hsize]
    rw [← hlen] at h1
    rw [hbuf i h1, List.getD_eq_getElem _ _
      (by simp only [List.length_reverse]; omega)]

theorem getD_reverse {α : Type} [Inhabited α] (l : List α) (i : Nat)
    (hi : i < l.length) :
    l.reverse.getD i default = l.getD (l.length - 1 - i) default := by
  rw [List.getD_eq_getElem _ _ (by simpa using hi),
    List.getD_eq_getElem _ _ (by omega)]
  exact List.getElem_reverse _

theorem rbInv_dropped {α : Type} [Inhabited α] {S : Nat} {vs : List α}
    {rb : RingBuffer α} (hS : 0 < S) (h : rbInv S vs rb)
    (hfull : rb.len = S) (v : α) :
    (rb.add v).1 = vs.reverse.getD (S - 1) default := by
  obtain ⟨hsize, hpos, hlen, hbuf⟩ := h
  have hposlt : rb.pos < S := by rw [hpos]; exact Nat.mod_lt _ hS
  have hb := hbuf (S - 1) (by omega)
  have harg : rb.pos + S - 1 - (S - 1) = rb.pos := by omega
  rw [harg, Nat.mod_eq_of_lt hposlt] at hb
  simpa [RingBuffer.add] using hb

/-- C5: for a ring buffer of capacity `C ≥ 1` whose full insertion history
is `vs`: `Add(v)` reports an eviction exactly when the used count equals
`C`; in that case the returned value is the oldest buffered value (the one
inserted `C` additions ago); otherwise the used count is incremented; `All`
yields the buffered values newest-first; and with capacity 3 after adding
1..5 the iteration yields `[5, 4, 3]`. -/
theorem c5_ring_buffer (C : Nat) (hC : 0 < C) (vs : List Nat) (v : Nat) :
    (((addAll (RingBuffer.new Nat C) vs).add v).2.1 = true ↔
      (addAll (RingBuffer.new Nat C) vs).len = C) ∧
    ((addAll (RingBuffer.new Nat C) vs).len = C →
      ((addAll (RingBuffer.new Nat C) vs).add v).1 =
        vs.getD (vs.length - C) 0) ∧
    ((addAll (RingBuffer.new Nat C) vs).len < C →
      ((addAll (RingBuffer.new Nat C) vs).add v).2.2.len =
        (addAll (RingBuffer.new Nat C) vs).len + 1) ∧
    (addAll (RingBuffer.new Nat C) vs).all =
      vs.reverse.take (min vs.length C) ∧
    (addAll (RingBuffer.new Nat 3) [1, 2, 3, 4, 5]).all = [5, 4, 3] := by
  have hmax : max C 1 = C := by omega
  have hinv0 := rbInv_new Nat C
  have hinv := addAll_inv (S := max C 1) (by omega) vs [] _ hinv0
  rw [hmax] at hinv
  simp only [List.nil_append] at hinv
  obtain ⟨hsize, hpos, hlen, hbuf⟩ := hinv
  refine ⟨?_, ?_, ?_, ?_, by decide⟩
  · simp only [RingBuffer.add, decide_eq_true_eq, hsize]
  · intro hfull
    have hd := rbInv_dropped (by omega)
      ⟨hsize, hpos, hlen, hbuf⟩ (by omega) v
    rw [hd, getD_reverse vs (C - 1) (by omega)]
    congr 1
    omega
  · intro hlt
    simp only [RingBuffer.add, hsize]
    rw [if_neg (by omega)]
  · exact rbInv_all ⟨hsize, hpos, hlen, hbuf⟩

/-- Witness for C5 at capacity 3, history `[1..5]`, next value 6: the
buffer is full and the evicted value is `3`, the oldest buffered one. -/
theorem c5_ring_buffer_witness :
    (0 < 3 ∧ (addAll (RingBuffer.new Nat 3) [1, 2, 3, 4, 5]).len = 3) ∧
    ((addAll (RingBuffer.new Nat 3) [1, 2, 3, 4, 5]).add 6).1 =
      [1, 2, 3, 4, 5].getD ([1, 2, 3, 4, 5].length - 3) 0 :=
  ⟨⟨by decide, by decide⟩,
    (c5_ring_buffer 3 (by decide) [1, 2, 3, 4, 5] 6).2.1 (by decide)⟩

/-- `entity.Event`: idempotency key, sensor name, integer value, unix
timestamp (`int64`). -/
structure Event where
  idempotencyID : String
  sensor : String
  value : Int
  ts : Int
  deriving DecidableEq, Repr, Inhabited

/-- `Sink.fmtKey`: builds `sensor_<name>\x7bts=<decimal>\x7d` (the byte
slice Go returns is the UTF-8 of this string; `strconv.FormatInt(ts, 10)`
agrees with `toString` on `Int`). -/
def fmtKey (sensor : String) (ts : Int) : String :=
  "sensor_" ++ sensor ++ "\x7bts=" ++ toString ts ++ "\x7d"

/-- Modelled from the spec: the generated msgpack serializer
`Event.MarshalMsg` is not among the sources; the spec declares the
serialized form opaque to the core ("the sink treats it as a byte blob").
The sink model is therefore parameterized by an arbitrary total
serialization function, and this concrete instance is used in witnesses. -/
def demoMarshal : Event → List Nat := fun _ => [42]

/-- Sink state relevant to the overflow path: the staging ring buffer and
the log of `journal.Write` calls issued so far, each recorded as the
`(key, value)` pair passed to the journal. -/
structure SinkState where
  buf : RingBuffer Event
  writes : List (String × List Nat)

/-- `sink.New` with `WithBufSize`: fresh ring buffer, no writes. -/
def sinkNew (bufSize : Nat) : SinkState :=
  { buf := RingBuffer.new Event bufSize, writes := [] }

/-- `Sink.appendToBuffer`: add the event to the ring buffer; when the
buffer was full, immediately serialize the evicted event and issue a
single-record `journal.Write` with the `fmtKey` key. -/
def appendToBuffer (marshal : Event → List Nat) (st : SinkState)
    (ev : Event) : SinkState :=
  let r := st.buf.add ev
  { buf := r.2.2,
    writes :=
      if r.2.1 then
        st.writes ++ [(fmtKey r.1.sensor r.1.ts, marshal r.1)]
      else st.writes }

/-- A sequence of `Append` calls reaching `appendToBuffer` (no middleware
configured). -/
def appendEvents (marshal : Event → List Nat) (st : SinkState) :
    List Event → SinkState
  | [] => st
  | ev :: evs => appendEvents marshal (appendToBuffer marshal st ev) evs

/-- C6: whenever `appendToBuffer` runs with a full ring buffer, the
evicted event is immediately written to the journal as a single record
with key `sensor_<name>\x7bts=<ts>\x7d` and the serialized evicted event
as value; and with buffer capacity 2, three `Append` calls issue exactly
one `journal.Write`, carrying the serialization of the first event. -/
theorem c6_overflow_spill (marshal : Event → List Nat) (st : SinkState)
    (ev e1 e2 e3 : Event) :
    (st.buf.len = st.buf.size →
      (appendToBuffer marshal st ev).writes =
        st.writes ++ [(fmtKey (st.buf.add ev).1.sensor (st.buf.add ev).1.ts,
          marshal (st.buf.add ev).1)]) ∧
    (appendEvents marshal (sinkNew 2) [e1, e2, e3]).writes =
      [(fmtKey e1.sensor e1.ts, marshal e1)] := by
  constructor
  · intro hfull
    simp [appendToBuffer, RingBuffer.add, hfull]
  · simp [appendEvents, appendToBuffer, sinkNew, RingBuffer.new,
      RingBuffer.add]

/-- Witness for C6: after two appends into a capacity-2 sink the buffer is
full, and the third append spills the evicted event to the journal. -/
theorem c6_overflow_spill_witness :
    ((appendEvents demoMarshal (sinkNew 2)
        [⟨"", "a", 1, 10⟩, ⟨"", "b", 2, 20⟩]).buf.len =
      (appendEvents demoMarshal (sinkNew 2)
        [⟨"", "a", 1, 10⟩, ⟨"", "b", 2, 20⟩]).buf.size) ∧
    (appendToBuffer demoMarshal
        (appendEvents demoMarshal (sinkNew 2)
          [⟨"", "a", 1, 10⟩, ⟨"", "b", 2, 20⟩]) ⟨"", "c", 3, 30⟩).writes =
      (appendEvents demoMarshal (sinkNew 2)
          [⟨"", "a", 1, 10⟩, ⟨"", "b", 2, 20⟩]).writes ++
        [(fmtKey ((appendEvents demoMarshal (sinkNew 2)
            [⟨"", "a", 1, 10⟩, ⟨"", "b", 2, 20⟩]).buf.add
              ⟨"", "c", 3, 30⟩).1.sensor
          ((appendEvents demoMarshal (sinkNew 2)
            [⟨"", "a", 1, 10⟩, ⟨"", "b", 2, 20⟩]).buf.add
              ⟨"", "c", 3, 30⟩).1.ts,
          demoMarshal ((appendEvents demoMarshal (sinkNew 2)
            [⟨"", "a", 1, 10⟩, ⟨"", "b", 2, 20⟩]).buf.add
              ⟨"", "c", 3, 30⟩).1)] :=
  ⟨by decide,
    (c6_overflow_spill demoMarshal
      (appendEvents demoMarshal (sinkNew 2)
        [⟨"", "a", 1, 10⟩, ⟨"", "b", 2, 20⟩])
      ⟨"", "c", 3, 30⟩ ⟨"", "a", 1, 10⟩ ⟨"", "b", 2, 20⟩
      ⟨"", "c", 3, 30⟩).1 (by decide)⟩

/-- Result of one pass of an event through `Deduplicator.Middleware`:
either the event was forwarded to the next handler or the call failed with
`ErrDuplicate`. -/
inductive DedupOutcome where
  | forwarded
  | errDuplicate
  deriving DecidableEq, Repr

/-- One event through `Deduplicator.Middleware` (between sweeps), with
`seen` the set of keys currently stored in the map: an empty idempotency
key bypasses the check; otherwise `LoadOrStore` forwards on first insert
and fails with `ErrDuplicate` on a loaded key. -/
def dedupStep (seen : List String) (id : String) :
    DedupOutcome × List String :=
  if id = "" then (.forwarded, seen)
  else if id ∈ seen then (.errDuplicate, seen)
  else (.forwarded, id :: seen)

/-- Outcomes of a sequence of events through the middleware. -/
def dedupRun (seen : List String) : List Event → List DedupOutcome
  | [] => []
  | ev :: evs =>
    (dedupStep seen ev.idempotencyID).1 ::
      dedupRun (dedupStep seen ev.idempotencyID).2 evs

/-- The events that reach the terminal handler. -/
def dedupReach (seen : List String) : List Event → List Event
  | [] => []
  | ev :: evs =>
    if (dedupStep seen ev.idempotencyID).1 = .forwarded then
      ev :: dedupReach (dedupStep seen ev.idempotencyID).2 evs
    else dedupReach (dedupStep seen ev.idempotencyID).2 evs

theorem dedupRun_length (seen : List String) (evs : List Event) :
    (dedupRun seen evs).length = evs.length := by
  induction evs generalizing seen with
  | nil => rfl
  | cons ev evs ih => simp [dedupRun, ih]

theorem dedupRun_forwarded_iff (evs : List Event) :
    ∀ (seen : List String) (i : Nat), i < evs.length →
      ((dedupRun seen evs).getD i .errDuplicate = .forwarded ↔
        ((evs.getD i default).idempotencyID = "" ∨
         ((evs.getD i default).idempotencyID ∉ seen ∧
          ∀ j, j < i → (evs.getD j default).idempotencyID ≠
            (evs.getD i default).idempotencyID))) := by
  induction evs with
  | nil => intro seen i hi; simp at hi
  | cons ev evs ih =>
    intro seen i hi
    match i with
    | 0 =>
      simp only [dedupRun, List.getD_cons_zero, dedupStep]
      by_cases h1 : ev.idempotencyID = ""
      · simp [h1]
      · rw [if_neg h1]
        by_cases h2 : ev.idempotencyID ∈ seen
        · rw [if_pos h2]
          simp [h1, h2]
        · rw [if_neg h2]
          simp [h1, h2]
    | k + 1 =>
      have hk : k < evs.length := by
        simpa using Nat.lt_of_succ_lt_succ hi
      simp only [dedupRun, List.getD_cons_succ]
      rw [ih _ k hk]
      by_cases hid : (evs.getD k default).idempotencyID = ""
      · rw [hid]
        simp
      · simp only [hid, false_or]
        constructor
        · rintro ⟨hmem, hall⟩
          refine ⟨?_, ?_⟩
          · intro hmem0
            apply hmem
            simp only [dedupStep]
            split
            · exact hmem0
            · split
              · exact hmem0
              · exact List.mem_cons_of_mem _ hmem0
          · intro j hj
            match j with
            | 0 =>
              simp only [List.getD_cons_zero]
              intro hcontra
              apply hmem
              simp only [dedupStep, hcontra]
              rw [if_neg hid]
              split
              · assumption
              · exact List.mem_cons_self _ _
            | j' + 1 =>
              simp only [List.getD_cons_succ]
              exact hall j' (by omega)
        · rintro ⟨hmem, hall⟩
          refine ⟨?_, fun j hj => ?_⟩
          · simp only [dedupStep]
            split
            · exact hmem
            · split
              · exact hmem
              · intro hmem1
                rcases List.mem_cons.mp hmem1 with heq | hmem2
                · exact hall 0 (by omega) (by
                    simpa [List.getD_cons_zero] using heq.symm)
                · exact hmem hmem2
          · have := hall (j + 1) (by omega)
            simpa [List.getD_cons_succ] using this

/-- C7: through the deduplication middleware (between sweeps, starting
from an empty map), an event with an empty idempotency key is always
forwarded, and an event with a non-empty key is forwarded exactly when no
earlier event carried the same key — otherwise it fails with
`ErrDuplicate`; for keys `[a, b, a, a, c]`, exactly the events with keys
`a`, `b`, `c` reach the terminal handler. -/
theorem c7_dedup_idempotence (evs : List Event) (i : Nat)
    (hi : i < evs.length) :
    ((dedupRun [] evs).getD i .errDuplicate = .forwarded ↔
      ((evs.getD i default).idempotencyID = "" ∨
       ∀ j, j < i → (evs.getD j default).idempotencyID ≠
         (evs.getD i default).idempotencyID)) ∧
    dedupReach []
        [⟨"a", "s", 1, 1⟩, ⟨"b", "s", 2, 2⟩, ⟨"a", "s", 3, 3⟩,
         ⟨"a", "s", 4, 4⟩, ⟨"c", "s", 5, 5⟩] =
      [⟨"a", "s", 1, 1⟩, ⟨"b", "s", 2, 2⟩, ⟨"c", "s", 5, 5⟩] := by
  refine ⟨?_, by decide⟩
  rw [dedupRun_forwarded_iff evs [] i hi]
  simp

/-- Witness for C7: with keys `[a, b, a]`, the event at index 2 is not
forwarded (its key repeats index 0). -/
theorem c7_dedup_idempotence_witness :
    (2 < ([⟨"a", "s", 1, 1⟩, ⟨"b", "s", 2, 2⟩,
        ⟨"a", "s", 3, 3⟩] : List Event).length) ∧
    ((dedupRun [] [⟨"a", "s", 1, 1⟩, ⟨"b", "s", 2, 2⟩, ⟨"a", "s", 3, 3⟩]
        ).getD 2 .errDuplicate = .forwarded ↔
      (([⟨"a", "s", 1, 1⟩, ⟨"b", "s", 2, 2⟩,
          ⟨"a", "s", 3, 3⟩] : List Event).getD 2 default).idempotencyID =
          "" ∨
       ∀ j, j < 2 →
         (([⟨"a", "s", 1, 1⟩, ⟨"b", "s", 2, 2⟩,
             ⟨"a", "s", 3, 3⟩] : List Event).getD j default).idempotencyID ≠
         (([⟨"a", "s", 1, 1⟩, ⟨"b", "s", 2, 2⟩,
             ⟨"a", "s", 3, 3⟩] : List Event).getD 2 default).idempotencyID) :=
  ⟨by decide,
    (c7_dedup_idempotence
      [⟨"a", "s", 1, 1⟩, ⟨"b", "s", 2, 2⟩, ⟨"a", "s", 3, 3⟩] 2
      (by decide)).1⟩

/-- Little-endian decimal digits by repeated division by 10, with a fuel
argument for structural recursion (`n` itself is always enough fuel). -/
def decDigitsAux : Nat → Nat → List Nat
  | 0, _ => []
  | _ + 1, 0 => []
  | fuel + 1, n + 1 => ((n + 1) % 10) :: decDigitsAux fuel ((n + 1) / 10)

def decDigitsLE (n : Nat) : List Nat := decDigitsAux n n

/-- Most-significant-first decimal digits of `n`, as `fmt` prints them. -/
def decimalRepr (n : Nat) : List Nat :=
  if n = 0 then [0] else (decDigitsLE n).reverse

def digitChar (d : Nat) : Char := Char.ofNat (48 + d)

/-- `segmentName` (`journal.go`): `fmt.Sprintf("%06d.wal", n)` — the
decimal digits zero-padded on the left to at least width 6 (wider numbers
are printed in full, not truncated), followed by `.wal`. -/
def segmentName (n : Nat) : String :=
  ⟨(List.replicate (6 - (decimalRepr n).length) '0' ++
      (decimalRepr n).map digitChar) ++ ".wal".data⟩

/-- Value of a most-significant-first digit list. -/
def valBE (l : List Nat) : Nat := l.foldl (fun acc d => acc * 10 + d) 0

/-- The decimal digit list padded to width 6, still
most-significant-first. -/
def padded6 (n : Nat) : List Nat :=
  List.replicate (6 - (decimalRepr n).length) 0 ++ decimalRepr n

theorem decDigitsAux_eq (fuel : Nat) :
    ∀ n : Nat, n ≤ fuel → decDigitsAux fuel n = Nat.digits 10 n := by
  induction fuel with
  | zero =>
    intro n hn
    have : n = 0 := by omega
    subst this
    simp [decDigitsAux]
  | succ fuel ih =>
    intro n hn
    match n with
    | 0 => simp [decDigitsAux]
    | k + 1 =>
      rw [decDigitsAux, ih ((k + 1) / 10) (by omega),
        Nat.digits_def' (by norm_num : (1:Nat) < 10) (Nat.succ_pos k)]

theorem foldl_valBE (l : List Nat) :
    ∀ acc : Nat, l.foldl (fun a d => a * 10 + d) acc =
      acc * 10 ^ l.length + valBE l := by
  induction l with
  | nil => intro acc; simp [valBE]
  | cons d l ih =>
    intro acc
    simp only [List.foldl_cons, List.length_cons, valBE]
    rw [ih (acc * 10 + d), ih (0 * 10 + d)]
    ring

theorem valBE_cons (d : Nat) (l : List Nat) :
    valBE (d :: l) = d * 10 ^ l.length + valBE l := by
  show List.foldl _ (0 * 10 + d) l = _
  rw [foldl_valBE l (0 * 10 + d)]
  ring

theorem valBE_lt (l : List Nat) (hl : ∀ d ∈ l, d < 10) :
    valBE l < 10 ^ l.length := by
  induction l with
  | nil => simp [valBE]
  | cons d l ih =>
    have hd : d < 10 := hl d (by simp)
    have hrec := ih fun x hx => hl x (by simp [hx])
    rw [List.length_cons, pow_succ]
    calc valBE (d :: l) = d * 10 ^ l.length + valBE l := valBE_cons d l
      _ < d * 10 ^ l.length + 10 ^ l.length := Nat.add_lt_add_left hrec _
      _ = (d + 1) * 10 ^ l.length := by ring
      _ ≤ 10 * 10 ^ l.length := Nat.mul_le_mul_right _ (by omega)
      _ = 10 ^ l.length * 10 := by ring

theorem valBE_replicate_zero (k : Nat) (l : List Nat) :
    valBE (List.replicate k 0 ++ l) = valBE l := by
  induction k with
  | zero => simp
  | succ k ih =>
    simp only [List.replicate_succ, List.cons_append, valBE,
      List.foldl_cons]
    simpa [valBE] using ih

theorem valBE_reverse_ofDigits (l : List Nat) :
    valBE l.reverse = Nat.ofDigits 10 l := by
  induction l with
  | nil => simp [valBE, Nat.ofDigits]
  | cons d l ih =>
    rw [List.reverse_cons, Nat.ofDigits_cons, ← ih]
    show List.foldl _ 0 (l.reverse ++ [d]) = _
    rw [List.foldl_append, foldl_valBE [d] (List.foldl _ 0 l.reverse)]
    simp [valBE]
    ring

theorem valBE_decimalRepr (n : Nat) : valBE (decimalRepr n) = n := by
  by_cases hn : n = 0
  · subst hn; simp [decimalRepr, valBE]
  · rw [decimalRepr, if_neg hn, decDigitsLE, decDigitsAux_eq n n le_rfl,
      valBE_reverse_ofDigits, Nat.ofDigits_digits]

theorem decimalRepr_digits_lt (n : Nat) : ∀ d ∈ decimalRepr n, d < 10 := by
  intro d hd
  by_cases hn : n = 0
  · subst hn; simp [decimalRepr] at hd; omega
  · rw [decimalRepr, if_neg hn, decDigitsLE, decDigitsAux_eq n n le_rfl,
      List.mem_reverse] at hd
    exact Nat.digits_lt_base (by norm_num) hd

theorem decimalRepr_length_le (n : Nat) (hn : n ≤ 999999) :
    (decimalRepr n).length ≤ 6 := by
  by_cases h0 : n = 0
  · subst h0; simp [decimalRepr]
  · rw [decimalRepr, if_neg h0, decDigitsLE, decDigitsAux_eq n n le_rfl,
      List.length_reverse]
    by_contra hgt
    have h7 : 7 ≤ (Nat.digits 10 n).length := by omega
    have hle := Nat.base_pow_length_digits_le 10 n (by norm_num) h0
    have hpow : (10 : Nat) ^ 7 ≤ 10 ^ (Nat.digits 10 n).length :=
      Nat.pow_le_pow_right (by norm_num) h7
    have h10 : (10 : Nat) ^ 7 = 10000000 := by norm_num
    omega

theorem padded6_length (n : Nat) (hn : n ≤ 999999) :
    (padded6 n).length = 6 := by
  have := decimalRepr_length_le n hn
  simp only [padded6, List.length_append, List.length_replicate]
  omega

theorem padded6_digits_lt (n : Nat) : ∀ d ∈ padded6 n, d < 10 := by
  intro d hd
  rcases List.mem_append.mp hd with h | h
  · have := List.eq_of_mem_replicate h
    omega
  · exact decimalRepr_digits_lt n d h

theorem valBE_padded6 (n : Nat) : valBE (padded6 n) = n := by
  rw [padded6, valBE_replicate_zero, valBE_decimalRepr]

theorem digitChar_lt_iff :
    ∀ d : Nat, d < 10 → ∀ e : Nat, e < 10 →
      (digitChar d < digitChar e ↔ d < e) := by decide

theorem lex_append_of_valBE_lt (s : List Char) :
    ∀ (a b : List Nat), a.length = b.length → (∀ d ∈ a, d < 10) →
      (∀ d ∈ b, d < 10) → valBE a < valBE b →
      List.Lex (· < ·) (a.map digitChar ++ s) (b.map digitChar ++ s) := by
  intro a
  induction a with
  | nil =>
    intro b hlen _ _ hv
    have : b = [] := by
      cases b
      · rfl
      · simp at hlen
    subst this
    simp [valBE] at hv
  | cons x a ih =>
    intro b hlen ha hb hv
    match b with
    | [] => simp at hlen
    | y :: b =>
      have hlen' : a.length = b.length := by simpa using hlen
      have hx : x < 10 := ha x (by simp)
      have hy : y < 10 := hb y (by simp)
      rw [valBE_cons, valBE_cons, hlen'] at hv
      rcases lt_trichotomy x y with hxy | hxy | hxy
      · exact List.Lex.rel ((digitChar_lt_iff x hx y hy).mpr hxy)
      · subst hxy
        have hv' : valBE a < valBE b := Nat.lt_of_add_lt_add_left hv
        exact List.Lex.cons
          (ih b hlen' (fun d hd => ha d (by simp [hd]))
            (fun d hd => hb d (by simp [hd])) hv')
      · exfalso
        have hbv : valBE b < 10 ^ b.length :=
          valBE_lt b fun d hd => hb d (by simp [hd])
        have h1 : (y + 1) * 10 ^ b.length ≤ x * 10 ^ b.length :=
          Nat.mul_le_mul_right _ (by omega)
        have chain : x * 10 ^ b.length < (y + 1) * 10 ^ b.length := by
          calc x * 10 ^ b.length ≤ x * 10 ^ b.length + valBE a :=
              Nat.le_add_right _ _
            _ < y * 10 ^ b.length + valBE b := hv
            _ < y * 10 ^ b.length + 10 ^ b.length := Nat.add_lt_add_left hbv _
            _ = (y + 1) * 10 ^ b.length := by ring
        exact absurd (lt_of_lt_of_le chain h1) (lt_irrefl _)

theorem segmentName_toList (n : Nat) :
    (segmentName n).toList = (padded6 n).map digitChar ++ ".wal".data := by
  simp only [segmentName, padded6, List.map_append, List.map_replicate]
  rfl

/-- C8 counterexample: with `m = 999999 < n = 1000000`, `segmentName m`
does not sort before `segmentName n`; the order reverses, because
`1000000.wal` is longer than 6 digits and is compared byte-wise against
the zero-padded 6-digit names. -/
theorem c8_counterexample :
    999999 < 1000000 ∧
    ¬ segmentName 999999 < segmentName 1000000 ∧
    segmentName 1000000 < segmentName 999999 := by
  have h9 : (segmentName 999999).toList =
      ['9', '9', '9', '9', '9', '9', '.', 'w', 'a', 'l'] := by decide
  have h1 : (segmentName 1000000).toList =
      ['1', '0', '0', '0', '0', '0', '0', '.', 'w', 'a', 'l'] := by decide
  refine ⟨by norm_num, ?_, ?_⟩
  · rw [String.lt_iff_toList_lt, h9, h1]
    intro hlt
    cases hlt with
    | rel hr => exact absurd hr (by decide)
  · rw [String.lt_iff_toList_lt, h9, h1]
    exact List.Lex.rel (by decide)

/-- C8 (amended): for all segment numbers `1 ≤ m < n ≤ 999999` the
filename `segmentName m` sorts lexicographically before `segmentName n`,
so `Replay`'s lexicographic sort visits segments in numeric order as long
as fewer than one million segments exist. -/
theorem c8_segmentName_mono (m n : Nat) (h1 : 1 ≤ m) (h2 : m < n)
    (h3 : n ≤ 999999) : segmentName m < segmentName n := by
  rw [String.lt_iff_toList_lt, segmentName_toList, segmentName_toList]
  exact lex_append_of_valBE_lt ".wal".data (padded6 m) (padded6 n)
    (by rw [padded6_length m (by omega), padded6_length n h3])
    (padded6_digits_lt m) (padded6_digits_lt n)
    (by rw [valBE_padded6, valBE_padded6]; exact h2)

/-- Witness for C8 (amended) at `m = 1`, `n = 2`. -/
theorem c8_segmentName_mono_witness :
    (1 ≤ 1 ∧ 1 < 2 ∧ 2 ≤ 999999) ∧ segmentName 1 < segmentName 2 :=
  ⟨⟨Nat.le_refl 1, by norm_num, by norm_num⟩,
    c8_segmentName_mono 1 2 (by norm_num) (by norm_num) (by norm_num)⟩

/-- Result of the startup scan (`Journal.scan`): the recovered maximum
sequence, or the error surfaced to `New`. -/
inductive ScanResult where
  | done (seq : Nat)
  | failed (r : ReadResult)
  deriving DecidableEq, Repr

/-- `Journal.scan`: read records until the reader stops, keeping the
running maximum of the decoded sequence numbers (`if e.Seq > w.seq`);
`io.EOF` ends the scan cleanly, any other error is returned. -/
def scanSeq (s : List Nat) (acc : Nat) : ScanResult :=
  match h : readRec s with
  | .ok e rest => scanSeq rest (max acc e.seq)
  | .eof => .done acc
  | .unexpectedEof => .failed .unexpectedEof
  | .badChecksum => .failed .badChecksum
  | .panicked => .failed .panicked
termination_by s.length
decreasing_by exact readRec_ok_length h

theorem scanSeq_of_ok {s : List Nat} {e : Entry} {rest : List Nat}
    (h : readRec s = .ok e rest) (acc : Nat) :
    scanSeq s acc = scanSeq rest (max acc e.seq) := by
  rw [scanSeq]
  split
  all_goals rename_i heq
  all_goals rw [h] at heq
  · cases heq
    rfl
  all_goals cases heq

theorem scanSeq_of_eof {s : List Nat} (h : readRec s = .eof) (acc : Nat) :
    scanSeq s acc = .done acc := by
  rw [scanSeq]
  split
  all_goals rename_i heq
  all_goals rw [h] at heq
  all_goals cases heq

/-- The bytes of a segment holding the given entries in order. -/
def encodeSeg (es : List Entry) : List Nat := (es.map encodeRecord).flatten

/-- Combined state of a `Journal` over a `MemStorage`: the sealed segment
files newest-first (`sealed.headD` is segment number `sealed.length`, the
oldest is `000001.wal`), the bytes of the active segment (number
`sealed.length + 1`), and the `seq`, `size` and `maxSize` fields of the
`Journal` struct.  The `bufio` writer is modelled as flushed: every
reopen in the claims happens after `Close`, which flushes it. -/
structure JState where
  sealed : List (List Nat)
  active : List Nat
  seq : Nat
  size : Nat
  maxSize : Nat
  deriving DecidableEq, Repr

/-- `New` over empty storage: `openLatest` finds no files and calls
`newSegment`, creating `000001.wal`; a zero `maxSize` defaults to
64 MiB. -/
def jnew (maxSize : Nat) : JState :=
  { sealed := [], active := [], seq := 0, size := 0,
    maxSize := if maxSize = 0 then 64 * 1024 * 1024 else maxSize }

/-- `Journal.newSegment` (rotation): flush, sync and close the active
segment (identity on the byte model), then create the successor with size
0. -/
def rotateJ (st : JState) : JState :=
  { st with sealed := st.active :: st.sealed, active := [], size := 0 }

/-- `Journal.Write`: increment the sequence, rotate first if
`size >= maxSize`, append the framed record, add its length to `size`,
return the assigned sequence.  The sequence is a `uint64`, hence the
`% 2^64`. -/
def writeOne (st : JState) (k v : List Nat) : JState × Nat :=
  let seq' := (st.seq + 1) % 2 ^ 64
  let st₁ := if st.maxSize ≤ st.size then rotateJ st else st
  let bytes := encodeRecord ⟨k, v, seq'⟩
  ({ st₁ with
      active := st₁.active ++ bytes,
      size := st₁.size + bytes.length,
      seq := seq' },
   seq')

/-- `Journal.WriteBatch` loop body: for each entry in input order, assign
the next sequence (mutating the caller's entry in place — modelled by
returning the updated entries), rotate if the size threshold is reached,
and append the record.  Returns the final state, the updated entries and
the assigned sequences. -/
def writeBatchAux (st : JState) : List Entry → JState × List Entry × List Nat
  | [] => (st, [], [])
  | e :: es =>
    let seq' := (st.seq + 1) % 2 ^ 64
    let e' := { e with seq := seq' }
    let st₁ := if st.maxSize ≤ st.size then rotateJ st else st
    let bytes := encodeRecord e'
    let st₂ := { st₁ with
      active := st₁.active ++ bytes,
      size := st₁.size + bytes.length,
      seq := seq' }
    let r := writeBatchAux st₂ es
    (r.1, e' :: r.2.1, seq' :: r.2.2)

/-- `Close` followed by `New` over the same storage: `openLatest` parses
the segment numbers (here `1 .. sealed.length + 1`), picks the maximum —
the active segment — scans it from sequence 0, and opens it for append
with its byte length as the size.  `none` models `New` returning the scan
error. -/
def reopenJ (st : JState) : Option JState :=
  match scanSeq st.active 0 with
  | .done sq => some { st with seq := sq, size := st.active.length }
  | .failed _ => none

/-- Journal API calls covered by the sequence claims. -/
inductive JOp where
  | write (k v : List Nat)
  | writeBatch (es : List Entry)
  | reopen
  deriving DecidableEq, Repr

/-- Run a trace of journal operations, collecting every sequence number
returned to the caller; `none` when a reopen fails. -/
def runOps : JState → List JOp → Option (JState × List Nat)
  | st, [] => some (st, [])
  | st, .write k v :: ops =>
    (runOps (writeOne st k v).1 ops).map fun p =>
      (p.1, (writeOne st k v).2 :: p.2)
  | st, .writeBatch es :: ops =>
    (runOps (writeBatchAux st es).1 ops).map fun p =>
      (p.1, (writeBatchAux st es).2.2 ++ p.2)
  | st, .reopen :: ops =>
    match reopenJ st with
    | none => none
    | some st' => runOps st' ops

/-- Number of entries written by a trace. -/
def entryCount : List JOp → Nat
  | [] => 0
  | .write _ _ :: ops => 1 + entryCount ops
  | .writeBatch es :: ops => es.length + entryCount ops
  | .reopen :: ops => entryCount ops

/-- Keys and values are Go byte slices small enough for the frame
format. -/
def wfKV (k v : List Nat) : Prop :=
  16 + k.length + v.length < 2 ^ 32 ∧
  (∀ b ∈ k, b < 256) ∧ (∀ b ∈ v, b < 256)

instance (k v : List Nat) : Decidable (wfKV k v) := by
  unfold wfKV; infer_instance

def wfOp : JOp → Prop
  | .write k v => wfKV k v
  | .writeBatch es => ∀ e ∈ es, wfKV e.key e.value
  | .reopen => True

instance : DecidablePred wfOp := fun op => by
  cases op <;> unfold wfOp <;> infer_instance

def wfOps (ops : List JOp) : Prop := ∀ op ∈ ops, wfOp op

instance (ops : List JOp) : Decidable (wfOps ops) := by
  unfold wfOps; infer_instance

/-- Reachability invariant of the journal model: the sealed and active
segments are encodings of entry lists whose sequence numbers, in storage
order, are exactly `1 .. c`; the active segment is empty only for a fresh
log; its entries are representable; and the in-memory counter equals
`c`. -/
def jinv (c : Nat) (st : JState) : Prop :=
  ∃ sealedEs : List (List Entry), ∃ activeEs : List Entry,
    st.sealed = sealedEs.map encodeSeg ∧
    st.active = encodeSeg activeEs ∧
    (sealedEs.reverse.flatten ++ activeEs).map Entry.seq =
      List.range' 1 c ∧
    (activeEs = [] → c = 0) ∧
    (∀ e ∈ activeEs, wfEntry e) ∧
    st.seq = c

theorem encodeSeg_nil : encodeSeg [] = [] := rfl

theorem encodeSeg_cons (e : Entry) (es : List Entry) :
    encodeSeg (e :: es) = encodeRecord e ++ encodeSeg es := by
  simp [encodeSeg]

theorem encodeSeg_append (xs ys : List Entry) :
    encodeSeg (xs ++ ys) = encodeSeg xs ++ encodeSeg ys := by
  simp [encodeSeg]

theorem scanSeq_encodeSeg (es : List Entry) :
    ∀ acc : Nat, (∀ e ∈ es, wfEntry e) →
      scanSeq (encodeSeg es) acc =
        .done (es.foldl (fun a e => max a e.seq) acc) := by
  induction es with
  | nil =>
    intro acc _
    rw [encodeSeg_nil, scanSeq_of_eof (by rfl : readRec [] = .eof) acc]
    rfl
  | cons e es ih =>
    intro acc hwf
    rw [encodeSeg_cons,
      scanSeq_of_ok (readRec_encodeRecord e (hwf e (by simp)) _) acc,
      ih (max acc e.seq) fun x hx => hwf x (by simp [hx])]
    rfl

theorem foldl_max_le (es : List Entry) :
    ∀ acc m : Nat, acc ≤ m → (∀ e ∈ es, e.seq ≤ m) →
      es.foldl (fun a e => max a e.seq) acc ≤ m := by
  induction es with
  | nil => intro acc m h _; simpa using h
  | cons e es ih =>
    intro acc m hacc hub
    simp only [List.foldl_cons]
    exact ih _ m (max_le hacc (hub e (by simp)))
      fun x hx => hub x (by simp [hx])

theorem acc_le_foldl (es : List Entry) :
    ∀ acc : Nat, acc ≤ es.foldl (fun a e => max a e.seq) acc := by
  induction es with
  | nil => intro acc; simp
  | cons e es ih =>
    intro acc
    simp only [List.foldl_cons]
    exact le_trans (le_max_left _ _) (ih _)

theorem le_foldl_max (es : List Entry) :
    ∀ acc : Nat, ∀ e ∈ es, e.seq ≤ es.foldl (fun a e => max a e.seq) acc := by
  induction es with
  | nil => intro acc e he; simp at he
  | cons x es ih =>
    intro acc e he
    simp only [List.foldl_cons]
    rcases List.mem_cons.mp he with h | h
    · subst h
      have hstep : e.seq ≤ max acc e.seq := le_max_right _ _
      have := acc_le_foldl es (max acc e.seq)
      omega
    · exact ih (max acc x.seq) e h

theorem foldl_max_eq (es : List Entry) (m : Nat)
    (hub : ∀ e ∈ es, e.seq ≤ m) (hmem : ∃ e ∈ es, e.seq = m) :
    es.foldl (fun a e => max a e.seq) 0 = m := by
  obtain ⟨e, he, hseq⟩ := hmem
  exact le_antisymm (foldl_max_le es 0 m (Nat.zero_le m) hub)
    (hseq ▸ le_foldl_max es 0 e he)

theorem jinv_push {c : Nat} {st : JState} (h : jinv c st) (e : Entry)
    (hkv : wfKV e.key e.value) (hseq : e.seq = (st.seq + 1) % 2 ^ 64)
    (hc : c + 1 < 2 ^ 64) :
    jinv (c + 1)
      { (if st.maxSize ≤ st.size then rotateJ st else st) with
        active := (if st.maxSize ≤ st.size then rotateJ st else st).active ++
          encodeRecord e,
        size := (if st.maxSize ≤ st.size then rotateJ st else st).size +
          (encodeRecord e).length,
        seq := e.seq } := by
  obtain ⟨sEs, aEs, hsealed, hactive, hflat, hempty, hwfa, hstseq⟩ := h
  have heseq : e.seq = c + 1 := by
    rw [hseq, hstseq]
    exact Nat.mod_eq_of_lt hc
  have hwfe : wfEntry e := ⟨hkv.1, by omega, hkv.2.1, hkv.2.2⟩
  have hconcat : ∀ pre : List Entry, pre.map Entry.seq = List.range' 1 c →
      (pre ++ [e]).map Entry.seq = List.range' 1 (c + 1) := by
    intro pre hpre
    have hmap : List.map Entry.seq [e] = [c + 1] := by simp [heseq]
    have hsingle : 1 + 1 * c = c + 1 := by omega
    rw [List.map_append, hpre, hmap, List.range'_concat, hsingle]
  by_cases hrot : st.maxSize ≤ st.size
  · rw [if_pos hrot]
    refine ⟨aEs :: sEs, [e], ?_, ?_, ?_, by simp, ?_, heseq⟩
    · simp [rotateJ, hsealed, hactive]
    · simp [rotateJ, encodeSeg]
    · have := hconcat (sEs.reverse.flatten ++ aEs) hflat
      simpa [List.reverse_cons, List.flatten_append, List.append_assoc]
        using this
    · intro x hx
      simp only [List.mem_singleton] at hx
      subst hx
      exact hwfe
  · rw [if_neg hrot]
    refine ⟨sEs, aEs ++ [e], hsealed, ?_, ?_, by simp, ?_, heseq⟩
    · rw [hactive, encodeSeg_append]
      simp [encodeSeg]
    · have := hconcat (sEs.reverse.flatten ++ aEs) hflat
      simpa [List.append_assoc] using this
    · intro x hx
      rcases List.mem_append.mp hx with hx | hx
      · exact hwfa x hx
      · simp only [List.mem_singleton] at hx
        subst hx
        exact hwfe

theorem writeOne_inv {c : Nat} {st : JState} (h : jinv c st)
    {k v : List Nat} (hkv : wfKV k v) (hc : c + 1 < 2 ^ 64) :
    jinv (c + 1) (writeOne st k v).1 ∧ (writeOne st k v).2 = c + 1 := by
  refine ⟨jinv_push h ⟨k, v, (st.seq + 1) % 2 ^ 64⟩ hkv rfl hc, ?_⟩
  obtain ⟨-, -, -, -, -, -, -, hstseq⟩ := h
  simp only [writeOne, hstseq]
  exact Nat.mod_eq_of_lt hc

theorem writeBatchAux_inv (es : List Entry) :
    ∀ (c : Nat) (st : JState), jinv c st →
      (∀ e ∈ es, wfKV e.key e.value) → c + es.length < 2 ^ 64 →
      jinv (c + es.length) (writeBatchAux st es).1 ∧
      (writeBatchAux st es).2.2 = List.range' (c + 1) es.length := by
  induction es with
  | nil =>
    intro c st h _ _
    exact ⟨by simpa using h, rfl⟩
  | cons e es ih =>
    intro c st h hwf hc
    have hstseq : st.seq = c := by
      obtain ⟨-, -, -, -, -, -, -, hs⟩ := h
      exact hs
    have hpush := jinv_push h { e with seq := (st.seq + 1) % 2 ^ 64 }
      (hwf e (by simp)) rfl (by simp at hc; omega)
    have hrest := ih (c + 1) _ hpush
      (fun x hx => hwf x (by simp [hx])) (by simp at hc ⊢; omega)
    have hseq' : (st.seq + 1) % 2 ^ 64 = c + 1 := by
      rw [hstseq]
      exact Nat.mod_eq_of_lt (by simp at hc; omega)
    constructor
    · have h1 := hrest.1
      have harith : c + 1 + es.length = c + (e :: es).length := by
        simp
        omega
      rw [harith] at h1
      exact h1
    · show (st.seq + 1) % 2 ^ 64 :: (writeBatchAux _ es).2.2 = _
      rw [hrest.2, hseq', List.length_cons, List.range'_succ]

theorem scan_of_inv {c : Nat} {st : JState} (h : jinv c st) :
    scanSeq st.active 0 = .done c := by
  obtain ⟨sEs, aEs, hsealed, hactive, hflat, hempty, hwfa, hstseq⟩ := h
  rw [hactive, scanSeq_encodeSeg aEs 0 hwfa]
  rcases eq_or_ne aEs [] with hnil | hne
  · subst hnil
    simp [hempty rfl]
  · congr 1
    set j := sEs.reverse.flatten.length with hj
    have hlen : j + aEs.length = c := by
      have hL := congrArg List.length hflat
      rw [List.length_map, List.length_append, List.length_range'] at hL
      exact hL
    have hane : 1 ≤ aEs.length := by
      rcases aEs with - | ⟨x, xs⟩
      · exact absurd rfl hne
      · simp
    have hsplit : List.range' 1 c =
        List.range' 1 j ++ List.range' (1 + j) (c - j) := by
      have happ := List.range'_append 1 j (c - j) 1
      rw [show 1 + 1 * j = 1 + j by omega,
        show c - j + j = c by omega] at happ
      exact happ.symm
    have hmaps : aEs.map Entry.seq = List.range' (1 + j) (c - j) := by
      have h1 : sEs.reverse.flatten.map Entry.seq ++ aEs.map Entry.seq =
          List.range' 1 j ++ List.range' (1 + j) (c - j) := by
        rw [← List.map_append, hflat, hsplit]
      have h2 := congrArg (List.drop j) h1
      rw [drop_app_len (by rw [List.length_map]),
        drop_app_len (List.length_range' _ _ _)] at h2
      exact h2
    apply foldl_max_eq
    · intro e he
      have hmem : e.seq ∈ List.range' (1 + j) (c - j) := by
        rw [← hmaps]
        exact List.mem_map_of_mem _ he
      have := List.mem_range'_1.mp hmem
      omega
    · have hcmem : c ∈ List.range' (1 + j) (c - j) := by
        rw [List.mem_range'_1]
        omega
      rw [← hmaps] at hcmem
      obtain ⟨e, he, hseq⟩ := List.mem_map.mp hcmem
      exact ⟨e, he, hseq⟩

theorem reopen_inv {c : Nat} {st : JState} (h : jinv c st) :
    reopenJ st = some { st with seq := c, size := st.active.length } ∧
    jinv c { st with seq := c, size := st.active.length } := by
  refine ⟨?_, ?_⟩
  · rw [reopenJ, scan_of_inv h]
  · obtain ⟨sEs, aEs, h1, h2, h3, h4, h5, -⟩ := h
    exact ⟨sEs, aEs, h1, h2, h3, h4, h5, rfl⟩

theorem runOps_inv (ops : List JOp) :
    ∀ (c : Nat) (st : JState), jinv c st → wfOps ops →
      c + entryCount ops < 2 ^ 64 →
      ∃ st' : JState,
        runOps st ops = some (st', List.range' (c + 1) (entryCount ops)) ∧
        jinv (c + entryCount ops) st' := by
  induction ops with
  | nil =>
    intro c st h _ _
    exact ⟨st, by simp [runOps, entryCount], by simpa [entryCount] using h⟩
  | cons op ops ih =>
    intro c st h hwf hc
    have hwfop : wfOp op := hwf op (by simp)
    have hwfops : wfOps ops := fun x hx => hwf x (by simp [hx])
    cases op with
    | write k v =>
      have hco : entryCount (.write k v :: ops) = 1 + entryCount ops := rfl
      rw [hco] at hc
      have hw := writeOne_inv h hwfop (by omega)
      obtain ⟨st', hrun, hinv⟩ := ih (c + 1) _ hw.1 hwfops (by omega)
      refine ⟨st', ?_, ?_⟩
      · simp only [runOps, hrun, Option.map_some', hw.2, hco]
        rw [show 1 + entryCount ops = entryCount ops + 1 from
          Nat.add_comm 1 _, List.range'_succ]
      · rw [hco, show c + (1 + entryCount ops) = c + 1 + entryCount ops
          from by omega]
        exact hinv
    | writeBatch es =>
      have hco : entryCount (.writeBatch es :: ops) =
          es.length + entryCount ops := rfl
      rw [hco] at hc
      have hwb := writeBatchAux_inv es c st h hwfop (by omega)
      obtain ⟨st', hrun, hinv⟩ := ih (c + es.length) _ hwb.1 hwfops
        (by omega)
      refine ⟨st', ?_, ?_⟩
      · simp only [runOps, hrun, Option.map_some', hwb.2, hco]
        have happ := List.range'_append (c + 1) es.length (entryCount ops) 1
        rw [show c + 1 + 1 * es.length = c + es.length + 1 by omega] at happ
        rw [happ, show entryCount ops + es.length =
          es.length + entryCount ops from Nat.add_comm _ _]
      · rw [hco, show c + (es.length + entryCount ops) =
          c + es.length + entryCount ops from by omega]
        exact hinv
    | reopen =>
      have hro := reopen_inv h
      obtain ⟨st', hrun, hinv⟩ := ih c _ hro.2 hwfops
        (by simpa [entryCount] using hc)
      refine ⟨st', ?_, by simpa [entryCount] using hinv⟩
      simp only [runOps, hro.1, hrun]
      rfl

theorem writeBatchAux_frame (es : List Entry) :
    ∀ st : JState,
      (writeBatchAux st es).2.1 =
        es.mapIdx (fun i e =>
          { key := e.key, value := e.value,
            seq := (st.seq + i + 1) % 2 ^ 64 }) ∧
      (writeBatchAux st es).2.2 =
        es.mapIdx (fun i _ => (st.seq + i + 1) % 2 ^ 64) := by
  induction es with
  | nil => intro st; constructor <;> simp [writeBatchAux]
  | cons e es ih =>
    intro st
    have hmod : ∀ i : Nat,
        ((st.seq + 1) % 18446744073709551616 + i + 1) %
          18446744073709551616 =
        (st.seq + (i + 1) + 1) % 18446744073709551616 := by
      intro i
      rw [Nat.add_assoc, Nat.mod_add_mod]
      congr 1
      omega
    constructor
    · simp only [writeBatchAux, List.mapIdx_cons]
      rw [(ih _).1]
      dsimp only
      simp [hmod]
    · simp only [writeBatchAux, List.mapIdx_cons]
      rw [(ih _).2]
      dsimp only
      simp [hmod]

/-- C10: on a (successful) `WriteBatch`, the caller's entries are mutated
in place — the i-th entry's `Seq` field is set to the i-th assigned
sequence while its `Key` and `Value` are left unchanged — and the returned
slice lists exactly those assigned sequences in input order (the i-th
assigned sequence being `seq + i + 1` in `uint64` arithmetic). -/
theorem c10_writeBatch_frame (st : JState) (entries : List Entry) :
    (writeBatchAux st entries).2.1 =
      entries.mapIdx (fun i e =>
        { key := e.key, value := e.value,
          seq := (st.seq + i + 1) % 2 ^ 64 }) ∧
    (writeBatchAux st entries).2.2 =
      entries.mapIdx (fun i _ => (st.seq + i + 1) % 2 ^ 64) :=
  writeBatchAux_frame entries st

/-- C1: starting from a fresh journal over empty storage, for every trace
of successful `Write`/`WriteBatch` calls, possibly interleaved with
`Close`-then-`New` reopens of the same storage (keys and values being
representable byte slices, with the total entry count inside `uint64`):
the full list of returned sequence numbers is exactly `1, 2, …, N` —
strictly increasing and contiguous from 1; the journal's counter ends at
`N`; the startup scan of the active segment observes exactly the counter,
a reopen restores precisely it, and the next `Write` returns it plus
one — so the first sequence issued after a reopen is the scanned maximum
plus 1. -/
theorem c1_sequence_contiguity (M : Nat) (ops : List JOp) (st : JState)
    (outs : List Nat) (hwf : wfOps ops)
    (hrun : runOps (jnew M) ops = some (st, outs))
    (hcount : entryCount ops + 1 < 2 ^ 64) :
    outs = List.range' 1 (entryCount ops) ∧
    st.seq = entryCount ops ∧
    scanSeq st.active 0 = .done st.seq ∧
    (∀ k v : List Nat, (writeOne st k v).2 = st.seq + 1) ∧
    (∀ st' : JState, reopenJ st = some st' → st'.seq = st.seq) := by
  have h0 : jinv 0 (jnew M) :=
    ⟨[], [], rfl, rfl, by simp, fun _ => rfl, by simp, rfl⟩
  obtain ⟨st'', hrun', hinv⟩ := runOps_inv ops 0 (jnew M) h0 hwf (by omega)
  rw [Nat.zero_add] at hrun' hinv
  have hpair : st = st'' ∧ outs = List.range' 1 (entryCount ops) := by
    have h := hrun.symm.trans hrun'
    simpa [eq_comm, and_comm] using h
  obtain ⟨hst, houts⟩ := hpair
  subst hst
  have hseq : st.seq = entryCount ops := by
    obtain ⟨-, -, -, -, -, -, -, hs⟩ := hinv
    exact hs
  refine ⟨houts, hseq, ?_, ?_, ?_⟩
  · rw [scan_of_inv hinv, hseq]
  · intro k v
    simp only [writeOne, hseq]
    exact Nat.mod_eq_of_lt (by omega)
  · intro st' hro
    rw [(reopen_inv hinv).1] at hro
    have := Option.some.inj hro
    rw [← this, hseq]

/-- A concrete trace for the C1 witness: one `Write` then a two-entry
`WriteBatch` (whose input `Seq` fields are ignored and overwritten). -/
def demoOps : List JOp :=
  [.write [1] [2], .writeBatch [⟨[3], [4], 99⟩, ⟨[5], [6], 0⟩]]

def demoRun : JState × List Nat :=
  (runOps (jnew 1024) demoOps).getD (jnew 1024, [])

/-- Witness for C1: the demo trace returns sequences `[1, 2, 3]`. -/
theorem c1_sequence_contiguity_witness :
    (wfOps demoOps ∧
     runOps (jnew 1024) demoOps = some (demoRun.1, demoRun.2) ∧
     entryCount demoOps + 1 < 2 ^ 64) ∧
    demoRun.2 = List.range' 1 (entryCount demoOps) :=
  ⟨⟨by decide, by decide, by decide⟩,
    (c1_sequence_contiguity 1024 demoOps demoRun.1 demoRun.2 (by decide)
      (by decide) (by decide)).1⟩

end Iotdemo
